import Mathlib

/-!
Verification of the lexer and parser of `my-lang.cpp` (a Kaleidoscope-style
language front end).  The lexer (`gettok`) and the recursive-descent parser
(`ParseExpression`, `ParseBinOpRHS`, `ParsePrimary`, `ParseParenExpr`,
`ParseIdentifierOrCallExpr`, `ParsePrototype`, `ParseDefinition`,
`ParseTopLevelExpr`, `ParseExtern`, `MainLoop`) are embedded as executable
Lean functions.  Machine I/O (stdin via `getchar`) is modelled as a list of
characters; the C global state (`LastChar`, `IdentifierStr`, `NumVal`,
`CurTok`) is threaded explicitly through a state record.  Numeric payloads
(C `double` produced by `strtod` on strings matching `[0-9.]+`) are modelled
as exact rationals; every value appearing in the claims is exactly
representable, so no rounding behaviour is relevant.  Recursive procedures
whose termination is not structural are given an explicit fuel argument;
fuel sufficiency is proved separately.
-/

namespace MyLang

/-- C `isspace` in the default locale, on ASCII input: space, \t, \n, \v, \f, \r. -/
def isspaceC (c : Char) : Bool :=
  c.toNat = 32 || (9 ≤ c.toNat && c.toNat ≤ 13)

/-- C `isalpha` in the default locale, on ASCII input. -/
def isalphaC (c : Char) : Bool :=
  (65 ≤ c.toNat && c.toNat ≤ 90) || (97 ≤ c.toNat && c.toNat ≤ 122)

/-- C `isdigit`. -/
def isdigitC (c : Char) : Bool :=
  48 ≤ c.toNat && c.toNat ≤ 57

/-- C `isalnum` in the default locale, on ASCII input. -/
def isalnumC (c : Char) : Bool :=
  isalphaC c || isdigitC c

/-- Token codes, from `enum Token` in my-lang.cpp.  The lexer returns these
negative codes for known things and the character's code point otherwise. -/
def tok_eof : Int := -1

/-- `tok_def` from `enum Token`. -/
def tok_def : Int := -2

/-- `tok_extern` from `enum Token` (renamed slightly here). -/
def tokExtern : Int := -3

/-- `tok_identifier` from `enum Token`. -/
def tok_identifier : Int := -4

/-- `tok_number` from `enum Token`. -/
def tok_number : Int := -5

/-- The lexer's mutable state: `LastChar` (the one-character lookahead,
`none` once `getchar` has returned EOF), the remaining standard input, and
the payload globals `IdentifierStr` (as a character list) and `NumVal`. -/
structure LexState where
  lastChar : Option Char
  input : List Char
  identifierStr : List Char
  numVal : ℚ
deriving Repr, DecidableEq

/-- The whitespace-skipping loop at the top of `gettok`:
`while (isspace(LastChar)) LastChar = getchar();`. -/
def skipWhitespace : Option Char → List Char → Option Char × List Char
  | none, input => (none, input)
  | some c, input =>
    if isspaceC c then
      match input with
      | [] => (none, [])
      | d :: rest => skipWhitespace (some d) rest
    else (some c, input)

/-- The identifier accumulation loop of `gettok`:
`while (isalnum((LastChar = getchar()))) IdentifierStr += LastChar;`.
Returns the accumulated name, the new `LastChar` and the remaining input. -/
def readIdent (acc : List Char) : List Char → List Char × Option Char × List Char
  | [] => (acc, none, [])
  | c :: rest =>
    if isalnumC c then readIdent (acc ++ [c]) rest else (acc, some c, rest)

/-- The number accumulation loop of `gettok`:
`do { NumStr += LastChar; LastChar = getchar(); } while (isdigit(LastChar) || LastChar == '.');`.
`c` is the current `LastChar` (already known to be a digit or `.`). -/
def readNum (acc : List Char) (c : Char) : List Char → List Char × Option Char × List Char
  | [] => (acc ++ [c], none, [])
  | d :: rest =>
    if isdigitC d || d = '.' then readNum (acc ++ [c]) d rest
    else (acc ++ [c], some d, rest)

/-- The comment-skipping loop of `gettok`:
`do { LastChar = getchar(); } while (LastChar != EOF && LastChar != '\n' && LastChar != '\r');`. -/
def skipComment : List Char → Option Char × List Char
  | [] => (none, [])
  | c :: rest =>
    if c = '\n' ∨ c = '\r' then (some c, rest) else skipComment rest

/-- Leading decimal digits of a character list, as a natural number
(the integer part read by `strtod`), together with the rest. -/
def digitsToNat (acc : ℕ) : List Char → ℕ × List Char
  | [] => (acc, [])
  | c :: rest =>
    if isdigitC c then digitsToNat (acc * 10 + (c.toNat - 48)) rest
    else (acc, c :: rest)

/-- Value of a fractional-digit string: `fracPart "25" = 0.25`.
Stops at the first non-digit (`strtod` stops at a second `.`). -/
def fracPart : List Char → ℚ
  | [] => 0
  | c :: rest =>
    if isdigitC c then (((c.toNat - 48 : ℕ) : ℚ) + fracPart rest) / 10
    else 0

/-- Model of C `strtod` restricted to the strings the lexer can feed it
(matching `[0-9.]+`): an integer part, then an optional `.` and fractional
digits; anything after that (for example a second `.`) is ignored.  The
result is an exact rational; all values in this development are exactly
representable as doubles, so the model agrees with the C code on them. -/
def strtodQ (s : List Char) : ℚ :=
  match digitsToNat 0 s with
  | (ip, rest) =>
    match rest with
    | '.' :: rest2 => (ip : ℚ) + fracPart rest2
    | _ => (ip : ℚ)

/-- `gettok` from my-lang.cpp, fuelled.  Returns the token code (an `Int`,
exactly as the C function does) and the updated lexer state.  The only
non-structural recursion in the C function is the tail call after a
comment, which consumes at least one input character, so any fuel larger
than the input length is enough (proved below); with fuel `0` we return
`tok_eof` but that case is unreachable from the wrapper `gettok`. -/
def gettokC : ℕ → LexState → Int × LexState
  | 0, st => (tok_eof, st)
  | f + 1, st =>
    match skipWhitespace st.lastChar st.input with
    | (none, inp) => (tok_eof, { st with lastChar := none, input := inp })
    | (some c, inp) =>
      if isalphaC c then
        match readIdent [c] inp with
        | (name, lc2, inp2) =>
          let st2 := { st with lastChar := lc2, input := inp2, identifierStr := name }
          if name = "def".toList then (tok_def, st2)
          else if name = "extern".toList then (tokExtern, st2)
          else (tok_identifier, st2)
      else if isdigitC c || c = '.' then
        match readNum [] c inp with
        | (numStr, lc2, inp2) =>
          (tok_number, { st with lastChar := lc2, input := inp2, numVal := strtodQ numStr })
      else if c = '#' then
        match skipComment inp with
        | (some c2, inp2) => gettokC f { st with lastChar := some c2, input := inp2 }
        | (none, inp2) => (tok_eof, { st with lastChar := none, input := inp2 })
      else
        match inp with
        | [] => ((c.toNat : Int), { st with lastChar := none, input := [] })
        | d :: rest => ((c.toNat : Int), { st with lastChar := some d, input := rest })

/-- `gettok` with always-sufficient fuel: the comment tail call consumes at
least one input character, so `|input| + 1` invocations always complete. -/
def gettok (st : LexState) : Int × LexState :=
  gettokC (st.input.length + 1) st

/-- The lexer's initial state: `LastChar` is the whitespace sentinel `' '`,
`IdentifierStr` is empty and `NumVal` is zero-initialised. -/
def initLexState (input : List Char) : LexState :=
  ⟨some ' ', input, [], 0⟩

/-- A token as the parser consumes it: the code returned by `gettok`
together with the payload global it refers to (`IdentifierStr` for
`tok_identifier`, `NumVal` for `tok_number`; every other token is
payload-free). -/
inductive Tok where
  | EndOfInput : Tok
  | Def : Tok
  | Extern : Tok
  | Identifier (name : String) : Tok
  | Number (val : ℚ) : Tok
  | Symbol (c : Char) : Tok
deriving Repr, DecidableEq

/-- Abstraction from the C-level view (an `int` code plus the two payload
globals at the time the code is inspected) to a self-contained token. -/
def tokOf (code : Int) (idStr : List Char) (numVal : ℚ) : Tok :=
  if code = tok_eof then .EndOfInput
  else if code = tok_def then .Def
  else if code = tokExtern then .Extern
  else if code = tok_identifier then .Identifier (String.mk idStr)
  else if code = tok_number then .Number numVal
  else .Symbol (Char.ofNat code.toNat)

/-- Run the lexer to end of input, collecting the token stream (the
end-of-input token included).  The fuel counts tokens; every token but the
final `tok_eof` consumes input, so `|input| + 2` is always enough. -/
def tokenizeC : ℕ → LexState → List Tok
  | 0, _ => []
  | f + 1, st =>
    match gettok st with
    | (code, st') =>
      let t := tokOf code st'.identifierStr st'.numVal
      if code = tok_eof then [t] else t :: tokenizeC f st'

/-- Token stream of a source string, from the initial lexer state. -/
def tokenizeStr (s : String) : List Tok :=
  tokenizeC (s.toList.length + 2) (initLexState s.toList)

/-!  ## Abstract syntax tree (from my-lang.cpp's AST classes) -/

/-- Expression nodes: `NumberExprAST`, `VariableExprAST`, `BinaryExprAST`
and `CallExprAST` from my-lang.cpp. -/
inductive ExprAST where
  | NumberExpr (val : ℚ) : ExprAST
  | VariableExpr (name : String) : ExprAST
  | BinaryExpr (op : Char) (lhs rhs : ExprAST) : ExprAST
  | CallExpr (callee : String) (args : List ExprAST) : ExprAST
deriving Repr

/-- `PrototypeAST`: a function name and its argument names. -/
structure PrototypeAST where
  name : String
  args : List String
deriving Repr, DecidableEq

/-- `FunctionAST`: a prototype plus a single body expression. -/
structure FunctionAST where
  proto : PrototypeAST
  body : ExprAST
deriving Repr

/-!  ## Parser (from my-lang.cpp's Parse* functions)

The C parser's state is the global token buffer `CurTok` plus the lexer
position; failures additionally print to stderr via `LogError`.  We model
the state as the list of not-yet-consumed tokens (`CurTok` is its head,
with `tok_eof` once the stream is exhausted, exactly as the C lexer keeps
returning `tok_eof` at end of input) together with the list of diagnostics
printed so far.  A parse function returns `none` for the C `nullptr`
failure sentinel.  The mutually recursive expression productions carry a
fuel argument; fuel never runs out for the wrapper functions (proved
below), and exhaustion is reported as an `Option.none` at the outer level,
distinct from a parse failure. -/

/-- Parser state: remaining token stream and diagnostics printed so far. -/
structure PState where
  toks : List Tok
  diags : List String
deriving Repr, DecidableEq

/-- `CurTok`: the token the parser is looking at. -/
def curTok (s : PState) : Tok :=
  s.toks.headD .EndOfInput

/-- `getNextToken()`: advance the token buffer. -/
def getNextToken (s : PState) : PState :=
  { s with toks := s.toks.tail }

/-- `LogError` / `LogErrorP`: print a diagnostic and return the `nullptr`
failure sentinel. -/
def logError (msg : String) (s : PState) : Option α × PState :=
  (none, { s with diags := s.diags ++ [msg] })

/-- `GetTokPrecedence()`: precedence of the pending binary-operator token;
`-1` when the current token is not a binary operator. -/
def GetTokPrecedence (t : Tok) : Int :=
  match t with
  | .Symbol c =>
    if c = '>' ∨ c = '<' then 10
    else if c = '+' ∨ c = '-' then 20
    else if c = '*' ∨ c = '/' then 40
    else -1
  | _ => -1

/-- The operator character stored into `BinaryExprAST` (`int BinOp = CurTok`
truncated to `char`).  Reachable calls always have a `Symbol` token here
(the precedence test guarantees it whenever the minimum precedence is
non-negative, which holds on every call chain from `ParseExpression`). -/
def tokChar : Tok → Char
  | .Symbol c => c
  | _ => Char.ofNat 0

/-- `ParseNumberExpr`: build a literal from `NumVal` and consume the token. -/
def ParseNumberExpr (v : ℚ) (s : PState) : Option ExprAST × PState :=
  (some (.NumberExpr v), getNextToken s)

mutual

/-- `ParseExpression`: `primary binoprhs`. -/
def ParseExpression : ℕ → PState → Option (Option ExprAST × PState)
  | 0, _ => none
  | f + 1, s =>
    match ParsePrimary f s with
    | none => none
    | some (none, s1) => some (none, s1)
    | some (some lhs, s1) => ParseBinOpRHS f 0 lhs s1

/-- `ParseBinOpRHS(ExprPrec, LHS)`: the precedence-climbing loop.  The
`while (1)` loop is modelled as the tail-recursive call with the same
minimum precedence; the nested climb is the recursive call with
`TokPrec + 1`. -/
def ParseBinOpRHS : ℕ → Int → ExprAST → PState → Option (Option ExprAST × PState)
  | 0, _, _, _ => none
  | f + 1, exprPrec, lhs, s =>
    let tokPrec := GetTokPrecedence (curTok s)
    if tokPrec < exprPrec then some (some lhs, s)
    else
      let binOp := tokChar (curTok s)
      let s1 := getNextToken s
      match ParsePrimary f s1 with
      | none => none
      | some (none, s2) => some (none, s2)
      | some (some rhs, s2) =>
        let nextPrec := GetTokPrecedence (curTok s2)
        if tokPrec < nextPrec then
          match ParseBinOpRHS f (tokPrec + 1) rhs s2 with
          | none => none
          | some (none, s3) => some (none, s3)
          | some (some rhs2, s3) =>
            ParseBinOpRHS f exprPrec (.BinaryExpr binOp lhs rhs2) s3
        else
          ParseBinOpRHS f exprPrec (.BinaryExpr binOp lhs rhs) s2

/-- `ParsePrimary`: dispatch on `CurTok`. -/
def ParsePrimary : ℕ → PState → Option (Option ExprAST × PState)
  | 0, _ => none
  | f + 1, s =>
    match curTok s with
    | .Identifier name => ParseIdentifierOrCallExpr f name s
    | .Number v => some (ParseNumberExpr v s)
    | .Symbol '(' => ParseParenExpr f s
    | _ => some (logError "unknown token when expecting an expression" s)

/-- `ParseParenExpr`: `'(' expression ')'`. -/
def ParseParenExpr : ℕ → PState → Option (Option ExprAST × PState)
  | 0, _ => none
  | f + 1, s =>
    let s1 := getNextToken s
    match ParseExpression f s1 with
    | none => none
    | some (none, s2) => some (none, s2)
    | some (some v, s2) =>
      if curTok s2 ≠ .Symbol ')' then some (logError "expected \x27)\x27" s2)
      else some (some v, getNextToken s2)

/-- `ParseIdentifierOrCallExpr`: a bare variable reference, or a call with a
comma-separated argument list. -/
def ParseIdentifierOrCallExpr : ℕ → String → PState → Option (Option ExprAST × PState)
  | 0, _, _ => none
  | f + 1, idName, s =>
    let s1 := getNextToken s
    if curTok s1 ≠ .Symbol '(' then some (some (.VariableExpr idName), s1)
    else
      let s2 := getNextToken s1
      if curTok s2 = .Symbol ')' then some (some (.CallExpr idName []), getNextToken s2)
      else
        match ParseArgs f [] s2 with
        | none => none
        | some (none, s3) => some (none, s3)
        | some (some args, s3) => some (some (.CallExpr idName args), getNextToken s3)

/-- The `while (true)` argument-list loop inside `ParseIdentifierOrCallExpr`:
parse an expression, then break on `)`, error on anything but `,`, else eat
the `,` and continue. -/
def ParseArgs : ℕ → List ExprAST → PState → Option (Option (List ExprAST) × PState)
  | 0, _, _ => none
  | f + 1, acc, s =>
    match ParseExpression f s with
    | none => none
    | some (none, s1) => some (none, s1)
    | some (some arg, s1) =>
      if curTok s1 = .Symbol ')' then some (some (acc ++ [arg]), s1)
      else if curTok s1 ≠ .Symbol ',' then
        some (logError "Expected \x27)\x27 or \x27,\x27 in argument list" s1)
      else ParseArgs f (acc ++ [arg]) (getNextToken s1)

end

/-- The argument-name loop of `ParsePrototype`:
`while (getNextToken() == tok_identifier) ArgNames.push_back(IdentifierStr);`.
Operates on the raw token list (it prints nothing). -/
def readArgNames (acc : List String) : List Tok → List String × List Tok
  | [] => (acc, [])
  | _ :: rest =>
    match rest with
    | .Identifier n :: _ => readArgNames (acc ++ [n]) rest
    | _ => (acc, rest)

/-- `ParsePrototype`: `id '(' id* ')'`. -/
def ParsePrototype (s : PState) : Option PrototypeAST × PState :=
  match curTok s with
  | .Identifier fnName =>
    let s1 := getNextToken s
    if curTok s1 ≠ .Symbol '(' then logError "Expected \x27(\x27 in prototype" s1
    else
      match readArgNames [] s1.toks with
      | (argNames, toks2) =>
        let s2 : PState := ⟨toks2, s1.diags⟩
        if curTok s2 ≠ .Symbol ')' then logError "Expected \x27)\x27 in prototype" s2
        else (some ⟨fnName, argNames⟩, getNextToken s2)
  | _ => logError "Expected function name in prototype" s

/-- `ParseDefinition`: `'def' prototype expression`. -/
def ParseDefinition (fuel : ℕ) (s : PState) : Option (Option FunctionAST × PState) :=
  let s1 := getNextToken s
  match ParsePrototype s1 with
  | (none, s2) => some (none, s2)
  | (some proto, s2) =>
    match ParseExpression fuel s2 with
    | none => none
    | some (none, s3) => some (none, s3)
    | some (some e, s3) => some (some ⟨proto, e⟩, s3)

/-- `ParseTopLevelExpr`: wrap an expression in an anonymous nullary
function. -/
def ParseTopLevelExpr (fuel : ℕ) (s : PState) : Option (Option FunctionAST × PState) :=
  match ParseExpression fuel s with
  | none => none
  | some (none, s1) => some (none, s1)
  | some (some e, s1) => some (some ⟨⟨"__anon_expr", []⟩, e⟩, s1)

/-- `ParseExtern`: `'extern' prototype`. -/
def ParseExtern (s : PState) : Option PrototypeAST × PState :=
  ParsePrototype (getNextToken s)

/-- A successfully parsed top-level form, as handed to code generation by
the driver (`HandleDefinition` / `HandleExtern` / `HandleTopLevelExpression`). -/
inductive TopForm where
  | DefForm (fn : FunctionAST) : TopForm
  | ExternForm (p : PrototypeAST) : TopForm
  | ExprForm (fn : FunctionAST) : TopForm
deriving Repr

/-- `MainLoop` from my-lang.cpp, with code generation stripped (out of
scope): collects the successfully parsed top-level forms in order.  On a
parse failure the handler discards one token for error recovery, exactly as
the C `Handle*` functions do.  `f` bounds loop iterations, `pfuel` is the
fuel handed to the expression parser. -/
def MainLoop : ℕ → ℕ → PState → Option (List TopForm × PState)
  | 0, _, _ => none
  | f + 1, pfuel, s =>
    match curTok s with
    | .EndOfInput => some ([], s)
    | .Symbol ';' => MainLoop f pfuel (getNextToken s)
    | .Def =>
      match ParseDefinition pfuel s with
      | none => none
      | some (some fn, s1) =>
        (MainLoop f pfuel s1).map (fun r => (.DefForm fn :: r.1, r.2))
      | some (none, s1) => MainLoop f pfuel (getNextToken s1)
    | .Extern =>
      match ParseExtern s with
      | (some p, s1) =>
        (MainLoop f pfuel s1).map (fun r => (.ExternForm p :: r.1, r.2))
      | (none, s1) => MainLoop f pfuel (getNextToken s1)
    | _ =>
      match ParseTopLevelExpr pfuel s with
      | none => none
      | some (some fn, s1) =>
        (MainLoop f pfuel s1).map (fun r => (.ExprForm fn :: r.1, r.2))
      | some (none, s1) => MainLoop f pfuel (getNextToken s1)

/-!  ## Auxiliary definitions used to state the claims -/

mutual

/-- Inputs consisting only of whitespace characters and `#`-to-end-of-line
comments (outside a comment). -/
def wsCommentsOnly : List Char → Bool
  | [] => true
  | c :: rest =>
    if isspaceC c then wsCommentsOnly rest
    else if c = '#' then wsCommentsAfterHash rest
    else false

/-- Continuation of `wsCommentsOnly` inside a comment: anything up to the
end of the line (or of the input) is part of the comment. -/
def wsCommentsAfterHash : List Char → Bool
  | [] => true
  | c :: rest =>
    if c = '\n' ∨ c = '\r' then wsCommentsOnly rest
    else wsCommentsAfterHash rest

end

/-- Invariant tying the lexer's lookahead and remaining input to
"whitespace and comments only": used to follow `gettok` through the
comment-skipping tail call. -/
def wsOnlyState : Option Char → List Char → Bool
  | none, input => input.isEmpty
  | some c, input =>
    if isspaceC c then wsCommentsOnly input
    else if c = '#' then wsCommentsAfterHash input
    else false

/-- Token stream of an operator/number chain `op1 v1 op2 v2 ...`
(the part following the leading number). -/
def chainToks : List (Char × ℚ) → List Tok
  | [] => []
  | (c, v) :: rest => .Symbol c :: .Number v :: chainToks rest

/-- The left-associated tree the spec expects for an equal-precedence
chain: `leftNest e [(o1,v1), (o2,v2)] = BinaryOp(o2, BinaryOp(o1, e, v1), v2)`. -/
def leftNest (e : ExprAST) : List (Char × ℚ) → ExprAST
  | [] => e
  | (c, v) :: rest => leftNest (.BinaryExpr c e (.NumberExpr v)) rest

/-!  ## Theorems -/

/-- Alphabetic characters are not whitespace, so the whitespace-skipping
loop does not run on them. -/
theorem isalphaC_not_isspaceC {c : Char} (h : isalphaC c = true) : isspaceC c = false := by
  cases hs : isspaceC c with
  | false => rfl
  | true =>
    exfalso
    simp only [isalphaC, Bool.or_eq_true, Bool.and_eq_true, decide_eq_true_eq] at h
    simp only [isspaceC, Bool.or_eq_true, Bool.and_eq_true, decide_eq_true_eq] at hs
    omega

/-- `skipWhitespace` is the identity when the lookahead is not whitespace. -/
theorem skipWhitespace_of_not_space {c : Char} (input : List Char)
    (h : isspaceC c = false) : skipWhitespace (some c) input = (some c, input) := by
  cases input <;> simp [skipWhitespace, h]

/-- The identifier loop accumulates exactly the longest alphanumeric
prefix of the remaining input, leaves the first non-alphanumeric character
(if any) as the new lookahead, and keeps the rest as input. -/
theorem readIdent_spec (input : List Char) : ∀ acc,
    readIdent acc input =
      (acc ++ input.takeWhile isalnumC,
        (input.dropWhile isalnumC).head?, (input.dropWhile isalnumC).tail) := by
  induction input with
  | nil => intro acc; simp [readIdent]
  | cons c rest ih =>
    intro acc
    by_cases hc : isalnumC c = true
    · simp [readIdent, hc, List.takeWhile_cons, List.dropWhile_cons, ih]
    · simp only [Bool.not_eq_true] at hc
      simp [readIdent, hc, List.takeWhile_cons, List.dropWhile_cons]

/-- C1: lexing `"1+2*3"` yields the token stream `Number 1, '+', Number 2,
'*', Number 3`, and parsing that stream with `ParseExpression` yields
`BinaryOp('+', NumberLiteral(1), BinaryOp('*', NumberLiteral(2),
NumberLiteral(3)))`: `*` (precedence 40) binds tighter than `+`
(precedence 20). -/
theorem C1_mul_binds_tighter_than_add :
    tokenizeStr "1+2*3" =
      [.Number 1, .Symbol '+', .Number 2, .Symbol '*', .Number 3, .EndOfInput] ∧
    ParseExpression 20
        ⟨[.Number 1, .Symbol '+', .Number 2, .Symbol '*', .Number 3, .EndOfInput], []⟩ =
      some (some (.BinaryExpr '+' (.NumberExpr 1)
          (.BinaryExpr '*' (.NumberExpr 2) (.NumberExpr 3))),
        ⟨[.EndOfInput], []⟩) :=
  ⟨rfl, rfl⟩

/-- C5: parsing `"def foo(x y) x+y"` yields
`FunctionDef(Prototype("foo", ["x","y"]), BinaryOp('+', VariableRef("x"),
VariableRef("y")))`: the prototype takes an identifier, `(`, bare
identifiers with no separators, `)`, and the definition parses one body
expression. -/
theorem C5_parse_definition :
    tokenizeStr "def foo(x y) x+y" =
      [.Def, .Identifier "foo", .Symbol '(', .Identifier "x", .Identifier "y",
       .Symbol ')', .Identifier "x", .Symbol '+', .Identifier "y", .EndOfInput] ∧
    ParseDefinition 20
        ⟨[.Def, .Identifier "foo", .Symbol '(', .Identifier "x", .Identifier "y",
          .Symbol ')', .Identifier "x", .Symbol '+', .Identifier "y", .EndOfInput], []⟩ =
      some (some ⟨⟨"foo", ["x", "y"]⟩,
          .BinaryExpr '+' (.VariableExpr "x") (.VariableExpr "y")⟩,
        ⟨[.EndOfInput], []⟩) :=
  ⟨rfl, rfl⟩

/-- C6: parsing `"foo(1, 2+3)"` yields `Call("foo", [NumberLiteral(1),
BinaryOp('+', NumberLiteral(2), NumberLiteral(3))])`: an identifier
followed by `(` produces a call whose arguments are the comma-separated
full expressions, in call-site order. -/
theorem C6_parse_call_args_in_order :
    tokenizeStr "foo(1, 2+3)" =
      [.Identifier "foo", .Symbol '(', .Number 1, .Symbol ',', .Number 2,
       .Symbol '+', .Number 3, .Symbol ')', .EndOfInput] ∧
    ParseExpression 20
        ⟨[.Identifier "foo", .Symbol '(', .Number 1, .Symbol ',', .Number 2,
          .Symbol '+', .Number 3, .Symbol ')', .EndOfInput], []⟩ =
      some (some (.CallExpr "foo"
          [.NumberExpr 1, .BinaryExpr '+' (.NumberExpr 2) (.NumberExpr 3)]),
        ⟨[.EndOfInput], []⟩) :=
  ⟨rfl, rfl⟩

/-- Every code returned by `gettok` is one of the five `Token` enum values
or a non-negative character code. -/
theorem gettok_code_valid : ∀ (f : ℕ) (st : LexState),
    (gettokC f st).1 = tok_eof ∨ (gettokC f st).1 = tok_def ∨ (gettokC f st).1 = tokExtern ∨
    (gettokC f st).1 = tok_identifier ∨ (gettokC f st).1 = tok_number ∨
    0 ≤ (gettokC f st).1 := by
  intro f
  induction f with
  | zero => intro st; left; rfl
  | succ f ih =>
    intro st
    rcases hsw : skipWhitespace st.lastChar st.input with ⟨lc, inp⟩
    match lc with
    | none => left; simp [gettokC, hsw]
    | some c =>
      by_cases ha : isalphaC c = true
      · rcases hri : readIdent [c] inp with ⟨nm, lc2, inp2⟩
        by_cases hd : nm = ['d', 'e', 'f']
        · right; left; simp [gettokC, hsw, ha, hri, hd]
        · by_cases he : nm = ['e', 'x', 't', 'e', 'r', 'n']
          · right; right; left; simp [gettokC, hsw, ha, hri, hd, he]
          · right; right; right; left; simp [gettokC, hsw, ha, hri, hd, he]
      · simp only [Bool.not_eq_true] at ha
        by_cases hdg : (isdigitC c || c = '.') = true
        · rcases hrn : readNum [] c inp with ⟨ns, lc2, inp2⟩
          right; right; right; right; left
          simp [gettokC, hsw, ha, hdg, hrn]
        · simp only [Bool.not_eq_true] at hdg
          by_cases hh : c = '#'
          · subst hh
            have ha2 : isalphaC '#' = false := by decide
            have hd2 : isdigitC '#' = false := by decide
            have hd3 : ¬('#' = '.') := by decide
            rcases hsc : skipComment inp with ⟨olc, inp2⟩
            match olc with
            | some c2 =>
              have := ih { st with lastChar := some c2, input := inp2 }
              simpa [gettokC, hsw, ha2, hd2, hd3, hsc] using this
            | none => left; simp [gettokC, hsw, ha2, hd2, hd3, hsc]
          · right; right; right; right; right
            cases inp <;> simp [gettokC, hsw, ha, hdg, hh]

theorem tokOf_payload_free (code : Int) (h1 : code ≠ tok_identifier) (h2 : code ≠ tok_number)
    (a : List Char) (b : ℚ) (a2 : List Char) (b2 : ℚ) :
    tokOf code a b = tokOf code a2 b2 := by
  simp [tokOf, h1, h2]

/-- C8: a token carries a payload only when it is `Identifier` (the
`IdentifierStr` global) or `Number` (the `NumVal` global): every code
`gettok` can return names one of the six token shapes, and for all codes
other than `tok_identifier` and `tok_number` the resulting token is
independent of the payload globals (`EndOfInput`, `Def`, `Extern` and
`Symbol` tokens are payload-free). -/
theorem C8_payload_only_identifier_number :
    (∀ (f : ℕ) (st : LexState),
      (gettokC f st).1 = tok_eof ∨ (gettokC f st).1 = tok_def ∨
      (gettokC f st).1 = tokExtern ∨ (gettokC f st).1 = tok_identifier ∨
      (gettokC f st).1 = tok_number ∨ 0 ≤ (gettokC f st).1) ∧
    (∀ (code : Int), code ≠ tok_identifier → code ≠ tok_number →
      ∀ (a : List Char) (b : ℚ) (a2 : List Char) (b2 : ℚ),
        tokOf code a b = tokOf code a2 b2) :=
  ⟨gettok_code_valid, fun code h1 h2 a b a2 b2 => tokOf_payload_free code h1 h2 a b a2 b2⟩

/-- C8 witness: the `tok_eof` code yields `EndOfInput` regardless of the
payload globals. -/
theorem C8_payload_only_identifier_number_witness :
    tokOf tok_eof ['a', 'b'] 5 = tokOf tok_eof [] 0 :=
  C8_payload_only_identifier_number.2 tok_eof (by decide) (by decide) ['a', 'b'] 5 [] 0

/-- One iteration of the `ParseBinOpRHS` loop on an equal-or-lower
precedence continuation: consume the operator and the following number,
merge into a `BinaryExpr`, and continue with the merged node as the new
left-hand side. -/
theorem binOpRHS_step (f : ℕ) (p : Int) (hp : 0 ≤ p) (c : Char) (v : ℚ)
    (lhs : ExprAST) (ts : List Tok) (d : List String)
    (hc : GetTokPrecedence (.Symbol c) = p)
    (hnext : ¬ p < GetTokPrecedence (ts.headD .EndOfInput)) :
    ParseBinOpRHS (f + 2) 0 lhs ⟨.Symbol c :: .Number v :: ts, d⟩ =
      ParseBinOpRHS (f + 1) 0 (.BinaryExpr c lhs (.NumberExpr v)) ⟨ts, d⟩ := by
  have h1 : curTok ⟨Tok.Symbol c :: .Number v :: ts, d⟩ = .Symbol c := rfl
  simp only [ParseBinOpRHS, h1, hc]
  rw [if_neg (by omega)]
  have h2 : getNextToken ⟨Tok.Symbol c :: .Number v :: ts, d⟩ = ⟨.Number v :: ts, d⟩ := rfl
  rw [h2]
  have h3 : ParsePrimary (f + 1) ⟨Tok.Number v :: ts, d⟩ =
      some (some (.NumberExpr v), ⟨ts, d⟩) := by
    simp [ParsePrimary, curTok, ParseNumberExpr, getNextToken]
  rw [h3]
  have h4 : curTok ⟨ts, d⟩ = ts.headD .EndOfInput := rfl
  simp only [h4]
  rw [if_neg hnext]
  rfl

/-- Folding an equal-precedence operator/number chain is left-associative:
the loop merges one operator at a time into the growing left-hand side and
never enters the higher-precedence climb. -/
theorem binOpRHS_chain : ∀ (rest : List (Char × ℚ)) (f : ℕ) (lhs : ExprAST)
    (tail : List Tok) (d : List String) (p : Int),
    0 ≤ p →
    (∀ cv ∈ rest, GetTokPrecedence (.Symbol cv.1) = p) →
    GetTokPrecedence (tail.headD .EndOfInput) < 0 →
    rest.length + 1 ≤ f →
    ParseBinOpRHS f 0 lhs ⟨chainToks rest ++ tail, d⟩ =
      some (some (leftNest lhs rest), ⟨tail, d⟩) := by
  intro rest
  induction rest with
  | nil =>
    intro f lhs tail d p hp hops htail hf
    obtain ⟨f1, rfl⟩ : ∃ f1, f = f1 + 1 := ⟨f - 1, by omega⟩
    have h1 : curTok ⟨chainToks [] ++ tail, d⟩ = tail.headD .EndOfInput := by
      simp [curTok, chainToks]
    simp only [ParseBinOpRHS, h1, leftNest]
    rw [if_pos htail]
    simp [chainToks]
  | cons cv rest ih =>
    obtain ⟨c, v⟩ := cv
    intro f lhs tail d p hp hops htail hf
    obtain ⟨f2, rfl⟩ : ∃ f2, f = f2 + 2 := ⟨f - 2, by simp at hf; omega⟩
    have hc : GetTokPrecedence (.Symbol c) = p := hops (c, v) (by simp)
    have hnext : ¬ p < GetTokPrecedence ((chainToks rest ++ tail).headD .EndOfInput) := by
      match rest with
      | [] =>
        have : GetTokPrecedence ((chainToks [] ++ tail).headD .EndOfInput) < 0 := by
          simpa [chainToks] using htail
        omega
      | (c2, v2) :: rest2 =>
        have h5 := hops (c2, v2) (by simp)
        have h6 : GetTokPrecedence ((chainToks ((c2, v2) :: rest2) ++ tail).headD .EndOfInput) = p := by
          simpa [chainToks] using h5
        omega
    have hstep := binOpRHS_step f2 p hp c v lhs (chainToks rest ++ tail) d hc hnext
    have hch : chainToks ((c, v) :: rest) ++ tail =
        Tok.Symbol c :: .Number v :: (chainToks rest ++ tail) := by simp [chainToks]
    rw [hch, hstep]
    have := ih (f2 + 1) (.BinaryExpr c lhs (.NumberExpr v)) tail d p hp
      (fun cv hm => hops cv (by simp [hm])) htail (by simp at hf; omega)
    rw [this]
    rfl

/-- C2: for every chain of equal-precedence operators (each with
precedence `p ≥ 0`, followed by a non-operator token), `ParseExpression`
parses `v0 op1 v1 op2 v2 ...` into the left-associated tree
`leftNest (NumberLiteral v0) chain`; in particular `1-2-3` becomes
`BinaryOp('-', BinaryOp('-', 1, 2), 3)`, because the higher-precedence
climb is entered only for *strictly* greater precedence (the recursion
uses the consumed precedence plus one). -/
theorem C2_equal_precedence_left_assoc (v0 : ℚ) (rest : List (Char × ℚ))
    (tail : List Tok) (d : List String) (p : Int) (f : ℕ)
    (hp : 0 ≤ p)
    (hops : ∀ cv ∈ rest, GetTokPrecedence (.Symbol cv.1) = p)
    (htail : GetTokPrecedence (tail.headD .EndOfInput) < 0)
    (hf : rest.length + 2 ≤ f) :
    ParseExpression f ⟨.Number v0 :: chainToks rest ++ tail, d⟩ =
      some (some (leftNest (.NumberExpr v0) rest), ⟨tail, d⟩) := by
  obtain ⟨f2, rfl⟩ : ∃ f2, f = f2 + 2 := ⟨f - 2, by omega⟩
  have h3 : ParsePrimary (f2 + 1) ⟨Tok.Number v0 :: (chainToks rest ++ tail), d⟩ =
      some (some (.NumberExpr v0), ⟨chainToks rest ++ tail, d⟩) := by
    simp [ParsePrimary, curTok, ParseNumberExpr, getNextToken]
  simp only [ParseExpression, List.cons_append] at *
  rw [h3]
  exact binOpRHS_chain rest (f2 + 1) (.NumberExpr v0) tail d p hp hops htail (by omega)

/-- C2 witness: `"1-2-3"` lexes to the chain `1 - 2 - 3` and parses to
`BinaryOp('-', BinaryOp('-', NumberLiteral(1), NumberLiteral(2)),
NumberLiteral(3))`. -/
theorem C2_equal_precedence_left_assoc_witness :
    tokenizeStr "1-2-3" =
      [.Number 1, .Symbol '-', .Number 2, .Symbol '-', .Number 3, .EndOfInput] ∧
    ParseExpression 5
        ⟨[.Number 1, .Symbol '-', .Number 2, .Symbol '-', .Number 3, .EndOfInput], []⟩ =
      some (some (.BinaryExpr '-' (.BinaryExpr '-' (.NumberExpr 1) (.NumberExpr 2))
          (.NumberExpr 3)),
        ⟨[.EndOfInput], []⟩) :=
  ⟨rfl, C2_equal_precedence_left_assoc 1 [('-', 2), ('-', 3)] [.EndOfInput] [] 20 5 (by decide)
    (by decide) (by decide) (by decide)⟩

/-- C4: when the lexer's lookahead character is alphabetic, `gettok`
accumulates that character and all following alphanumeric characters into
a name (leaving the first non-alphanumeric character as the new
lookahead), and returns the `Def` token if the name is exactly `"def"`,
the `Extern` token if it is exactly `"extern"`, and `Identifier(name)`
otherwise. -/
theorem C4_identifier_and_keywords (st : LexState) (c : Char)
    (h1 : st.lastChar = some c) (h2 : isalphaC c = true) :
    gettok st =
      ((if c :: st.input.takeWhile isalnumC = "def".toList then tok_def
        else if c :: st.input.takeWhile isalnumC = "extern".toList then tokExtern
        else tok_identifier),
        ⟨(st.input.dropWhile isalnumC).head?, (st.input.dropWhile isalnumC).tail,
          c :: st.input.takeWhile isalnumC, st.numVal⟩) ∧
    tokOf (gettok st).1 (gettok st).2.identifierStr (gettok st).2.numVal =
      (if c :: st.input.takeWhile isalnumC = "def".toList then .Def
       else if c :: st.input.takeWhile isalnumC = "extern".toList then .Extern
       else .Identifier (String.mk (c :: st.input.takeWhile isalnumC))) := by
  have hmain : gettok st =
      ((if c :: st.input.takeWhile isalnumC = "def".toList then tok_def
        else if c :: st.input.takeWhile isalnumC = "extern".toList then tokExtern
        else tok_identifier),
        ⟨(st.input.dropWhile isalnumC).head?, (st.input.dropWhile isalnumC).tail,
          c :: st.input.takeWhile isalnumC, st.numVal⟩) := by
    unfold gettok
    simp only [gettokC, h1, skipWhitespace_of_not_space _ (isalphaC_not_isspaceC h2), h2,
      readIdent_spec, if_true, List.singleton_append]
    split_ifs <;> rfl
  refine ⟨hmain, ?_⟩
  rw [hmain]
  split_ifs <;>
    simp [tokOf, tok_eof, tok_def, tokExtern, tok_identifier, tok_number]

/-- C4 witness: lexing from lookahead `'x'` with remaining input `1+2`
accumulates the name `x1` (not a keyword), producing `Identifier "x1"` and
stopping at `'+'`. -/
theorem C4_identifier_and_keywords_witness :
    gettok ⟨some 'x', ['1', '+', '2'], [], 0⟩ =
      (tok_identifier, ⟨some '+', ['2'], ['x', '1'], 0⟩) ∧
    tokOf (gettok ⟨some 'x', ['1', '+', '2'], [], 0⟩).1
        (gettok ⟨some 'x', ['1', '+', '2'], [], 0⟩).2.identifierStr
        (gettok ⟨some 'x', ['1', '+', '2'], [], 0⟩).2.numVal =
      .Identifier "x1" :=
  C4_identifier_and_keywords ⟨some 'x', ['1', '+', '2'], [], 0⟩ 'x' rfl (by decide)

/-- If the lexer state is in whitespace-and-comments-only territory, the
whitespace loop either consumes everything (reaching end of input) or
stops at a `#` that begins a comment. -/
theorem skipWhitespace_wsOnly : ∀ (input : List Char) (lc : Option Char),
    wsOnlyState lc input = true →
    skipWhitespace lc input = (none, []) ∨
    ∃ inp2, skipWhitespace lc input = (some '#', inp2) ∧
      wsCommentsAfterHash inp2 = true ∧ inp2.length ≤ input.length := by
  intro input
  induction input with
  | nil =>
    intro lc h
    match lc with
    | none => left; rfl
    | some c =>
      by_cases hsp : isspaceC c = true
      · left; simp [skipWhitespace, hsp]
      · by_cases hq : c = '#'
        · subst hq
          right
          refine ⟨[], ?_, ?_, le_refl _⟩
          · simp [skipWhitespace, hsp]
          · rfl
        · exfalso
          simp [wsOnlyState, hsp, hq] at h
  | cons d rest ih =>
    intro lc h
    match lc with
    | none => simp [wsOnlyState] at h
    | some c =>
      by_cases hsp : isspaceC c = true
      · simp only [wsOnlyState, hsp, if_true] at h
        have hstep : skipWhitespace (some c) (d :: rest) = skipWhitespace (some d) rest := by
          simp [skipWhitespace, hsp]
        rw [hstep]
        have hnext : wsOnlyState (some d) rest = true := by
          by_cases hd : isspaceC d = true
          · simp only [wsCommentsOnly, hd, if_true] at h
            simp [wsOnlyState, hd, h]
          · by_cases hq : d = '#'
            · subst hq
              simp [wsCommentsOnly, hd] at h
              simp [wsOnlyState, hd, h]
            · exfalso
              simp [wsCommentsOnly, hd, hq] at h
        rcases ih (some d) hnext with h1 | ⟨inp2, h1, h2, h3⟩
        · left; exact h1
        · right; exact ⟨inp2, h1, h2, le_trans h3 (by simp)⟩
      · by_cases hq : c = '#'
        · subst hq
          right
          refine ⟨d :: rest, ?_, ?_, le_refl _⟩
          · simp [skipWhitespace, hsp]
          · simpa [wsOnlyState, hsp] using h
        · exfalso
          simp [wsOnlyState, hsp, hq] at h

/-- Inside a comment within whitespace-and-comments-only input, the
comment loop either reaches end of input or stops at a newline with the
rest of the input again whitespace-and-comments-only. -/
theorem skipComment_afterHash : ∀ (input : List Char),
    wsCommentsAfterHash input = true →
    skipComment input = (none, []) ∨
    ∃ c2 inp2, skipComment input = (some c2, inp2) ∧ isspaceC c2 = true ∧
      wsCommentsOnly inp2 = true ∧ inp2.length < input.length := by
  intro input
  induction input with
  | nil => intro h; left; rfl
  | cons c rest ih =>
    intro h
    by_cases hnl : c = '\n' ∨ c = '\r'
    · right
      refine ⟨c, rest, ?_, ?_, ?_, by simp⟩
      · simp [skipComment, hnl]
      · rcases hnl with h' | h' <;> subst h' <;> decide
      · simpa only [wsCommentsAfterHash, if_pos hnl] using h
    · have hstep : skipComment (c :: rest) = skipComment rest := by
        simp [skipComment, hnl]
      rw [hstep]
      have hrest : wsCommentsAfterHash rest = true := by
        simpa only [wsCommentsAfterHash, if_neg hnl] using h
      rcases ih hrest with h1 | ⟨c2, inp2, h1, h2, h3, h4⟩
      · left; exact h1
      · right; exact ⟨c2, inp2, h1, h2, h3, by simp; omega⟩

/-- On whitespace-and-comments-only lexer states, `gettok` runs to end of
input and returns `tok_eof`, leaving the payload globals untouched. -/
theorem gettokC_wsOnly : ∀ (f : ℕ) (st : LexState), st.input.length < f →
    wsOnlyState st.lastChar st.input = true →
    gettokC f st = (tok_eof, ⟨none, [], st.identifierStr, st.numVal⟩) := by
  intro f
  induction f with
  | zero => intro st hf _; exact absurd hf (Nat.not_lt_zero _)
  | succ f ih =>
    intro st hf h
    rcases skipWhitespace_wsOnly st.input st.lastChar h with hsw | ⟨inp2, hsw, hah, hlen⟩
    · simp [gettokC, hsw]
    · have h1 : isalphaC '#' = false := by decide
      have h2 : isdigitC '#' = false := by decide
      have h3 : ¬('#' = '.') := by decide
      rcases skipComment_afterHash inp2 hah with hsc | ⟨c2, inp3, hsc, hsp2, hws2, hlen2⟩
      · simp [gettokC, hsw, h1, h2, h3, hsc]
      · have hrec := ih { st with lastChar := some c2, input := inp3 }
          (by simp; omega) (by simp [wsOnlyState, hsp2, hws2])
        simp [gettokC, hsw, h1, h2, h3, hsc, hrec]

/-- C7: for every input consisting only of whitespace characters and
`#`-to-end-of-line comments, the first requested token is already the
end-of-input token, the token stream is just `EndOfInput`, and the driver
loop returns immediately with no top-level form produced. -/
theorem C7_ws_comments_only_yield_eof (input : List Char)
    (h : wsCommentsOnly input = true) :
    gettok (initLexState input) = (tok_eof, ⟨none, [], [], 0⟩) ∧
    tokenizeC (input.length + 2) (initLexState input) = [.EndOfInput] ∧
    (∀ f pf (s : PState), curTok s = .EndOfInput → MainLoop (f + 1) pf s = some ([], s)) := by
  have hlex : gettok (initLexState input) = (tok_eof, ⟨none, [], [], 0⟩) := by
    have := gettokC_wsOnly (input.length + 1) (initLexState input)
      (by simp [initLexState]) (by simp [wsOnlyState, initLexState, h]; decide)
    simpa [gettok, initLexState] using this
  refine ⟨hlex, ?_, ?_⟩
  · have : input.length + 2 = (input.length + 1) + 1 := by omega
    rw [this]
    simp [tokenizeC, hlex, tokOf]
  · intro f pf s hs
    simp [MainLoop, hs]

/-- C7 witness: the input `# hi` (a bare comment) lexes directly to the
end-of-input token. -/
theorem C7_ws_comments_only_yield_eof_witness :
    gettok (initLexState ['#', ' ', 'h', 'i']) = (tok_eof, ⟨none, [], [], 0⟩) :=
  (C7_ws_comments_only_yield_eof ['#', ' ', 'h', 'i'] (by decide)).1

/-- C10: whenever `ParseTopLevelExpr` completes, either the expression
parse succeeded and the result is a `FunctionAST` whose prototype has the
fixed name `"__anon_expr"` and an empty parameter list and whose body is
the parsed expression, or the expression parse failed and the result is
the failure sentinel — no synthetic function is constructed. -/
theorem C10_toplevel_anon_wrapper (fuel : ℕ) (s : PState)
    (res : Option FunctionAST × PState) (h : ParseTopLevelExpr fuel s = some res) :
    (∃ e s1, ParseExpression fuel s = some (some e, s1) ∧
        res = (some ⟨⟨"__anon_expr", []⟩, e⟩, s1)) ∨
    (∃ s1, ParseExpression fuel s = some (none, s1) ∧ res = (none, s1)) := by
  unfold ParseTopLevelExpr at h
  cases he : ParseExpression fuel s with
  | none => rw [he] at h; exact absurd h (by simp)
  | some r =>
    obtain ⟨r1, s1⟩ := r
    rw [he] at h
    cases r1 with
    | none => right; exact ⟨s1, rfl, by simpa using h.symm⟩
    | some e => left; exact ⟨e, s1, rfl, by simpa using h.symm⟩

/-- C10 witness: at the concrete stream `7` the wrapper is built with
prototype `("__anon_expr", [])` and body `NumberLiteral 7`. -/
theorem C10_toplevel_anon_wrapper_witness :
    (∃ e s1, ParseExpression 20 ⟨[.Number 7, .EndOfInput], []⟩ = some (some e, s1) ∧
        (some (⟨⟨"__anon_expr", []⟩, .NumberExpr 7⟩ : FunctionAST),
          (⟨[.EndOfInput], []⟩ : PState)) = (some ⟨⟨"__anon_expr", []⟩, e⟩, s1)) ∨
    (∃ s1, ParseExpression 20 ⟨[.Number 7, .EndOfInput], []⟩ = some (none, s1) ∧
        (some (⟨⟨"__anon_expr", []⟩, .NumberExpr 7⟩ : FunctionAST),
          (⟨[.EndOfInput], []⟩ : PState)) = (none, s1)) :=
  C10_toplevel_anon_wrapper 20 ⟨[.Number 7, .EndOfInput], []⟩ _ rfl

/-- C3: parsing the unterminated input `"(1+2"` fails: `ParseParenExpr`
prints the diagnostic `expected ')'` and the parse yields the failure
sentinel with no AST node; moreover each production that calls a failed
sub-production itself returns the failure sentinel without constructing a
node (paren expression, expression, definition — both a failed prototype
and a failed body). -/
theorem C3_unterminated_paren_fails :
    (tokenizeStr "(1+2" =
        [.Symbol '(', .Number 1, .Symbol '+', .Number 2, .EndOfInput] ∧
      ParseTopLevelExpr 20
          ⟨[.Symbol '(', .Number 1, .Symbol '+', .Number 2, .EndOfInput], []⟩ =
        some (none, ⟨[.EndOfInput], ["expected \x27)\x27"]⟩)) ∧
    (∀ f s s2, ParseExpression f (getNextToken s) = some (none, s2) →
      ParseParenExpr (f + 1) s = some (none, s2)) ∧
    (∀ f s s2, ParsePrimary f s = some (none, s2) →
      ParseExpression (f + 1) s = some (none, s2)) ∧
    (∀ f s s2, ParsePrototype (getNextToken s) = (none, s2) →
      ParseDefinition f s = some (none, s2)) ∧
    (∀ f s p s2 s3, ParsePrototype (getNextToken s) = (some p, s2) →
      ParseExpression f s2 = some (none, s3) →
      ParseDefinition f s = some (none, s3)) := by
  refine ⟨⟨rfl, rfl⟩, ?_, ?_, ?_, ?_⟩
  · intro f s s2 h
    simp only [ParseParenExpr, h]
  · intro f s s2 h
    simp only [ParseExpression, h]
  · intro f s s2 h
    simp only [ParseDefinition, h]
  · intro f s p s2 s3 h1 h2
    simp only [ParseDefinition, h1, h2]

/-- C3 witness: the propagation conjuncts applied at the concrete failed
parse of `"(1+2"`: the paren production's inner expression state after
eating `(` fails at end of input in `ParsePrimary`... here we instantiate
the expression-level propagation at the stream `)` (whose primary parse
fails), checking that `ParseExpression` forwards the failure sentinel. -/
theorem C3_unterminated_paren_fails_witness :
    ParseExpression 6 ⟨[.Symbol ')', .EndOfInput], []⟩ =
      some (none, ⟨[.Symbol ')', .EndOfInput],
        ["unknown token when expecting an expression"]⟩) :=
  C3_unterminated_paren_fails.2.2.1 5 ⟨[.Symbol ')', .EndOfInput], []⟩ _ rfl

/-- Advancing the token buffer shortens the remaining stream by one. -/
theorem length_getNextToken (s : PState) :
    (getNextToken s).toks.length = s.toks.length - 1 := by
  simp [getNextToken]

/-- A current token other than `EndOfInput` means the stream is nonempty. -/
theorem toks_ne_nil_of_curTok {s : PState} {t : Tok} (h : curTok s = t)
    (ht : t ≠ .EndOfInput) : s.toks ≠ [] := by
  intro hnil
  rw [curTok, hnil] at h
  simp at h
  exact ht h.symm

/-- Token consumption: every completed parse leaves at most as many tokens
as it started with, and a *successful* primary or expression (and paren or
identifier parse on a nonempty stream) consumes at least one token.  This
is the progress fact behind termination of the precedence-climbing loop. -/
theorem parse_consume : ∀ f : ℕ,
    (∀ s r, ParseExpression f s = some r → r.2.toks.length ≤ s.toks.length ∧
      (∀ e, r.1 = some e → r.2.toks.length < s.toks.length)) ∧
    (∀ p lhs s r, ParseBinOpRHS f p lhs s = some r →
      r.2.toks.length ≤ s.toks.length) ∧
    (∀ s r, ParsePrimary f s = some r → r.2.toks.length ≤ s.toks.length ∧
      (∀ e, r.1 = some e → r.2.toks.length < s.toks.length)) ∧
    (∀ s r, ParseParenExpr f s = some r → r.2.toks.length ≤ s.toks.length ∧
      (s.toks ≠ [] → ∀ e, r.1 = some e → r.2.toks.length < s.toks.length)) ∧
    (∀ nm s r, ParseIdentifierOrCallExpr f nm s = some r →
      r.2.toks.length ≤ s.toks.length ∧
      (s.toks ≠ [] → ∀ e, r.1 = some e → r.2.toks.length < s.toks.length)) ∧
    (∀ acc s r, ParseArgs f acc s = some r → r.2.toks.length ≤ s.toks.length) := by
  intro f
  induction f with
  | zero =>
    refine ⟨?_, ?_, ?_, ?_, ?_, ?_⟩ <;> intros <;> simp_all [ParseExpression,
      ParseBinOpRHS, ParsePrimary, ParseParenExpr, ParseIdentifierOrCallExpr, ParseArgs]
  | succ f ih =>
    obtain ⟨ihE, ihB, ihP, ihQ, ihI, ihA⟩ := ih
    refine ⟨?_, ?_, ?_, ?_, ?_, ?_⟩
    · -- ParseExpression
      intro s r h
      simp only [ParseExpression] at h
      split at h
      · exact absurd h (by simp)
      · rename_i heq
        cases h
        have h1 := (ihP _ _ heq).1
        exact ⟨h1, fun e he => by simp at he⟩
      · rename_i lhs s1 heq
        have h1 := (ihP _ _ heq).2 lhs rfl
        have h2 := ihB _ _ _ _ h
        exact ⟨by (try dsimp only at *); omega, fun e he => by (try dsimp only at *); omega⟩
    · -- ParseBinOpRHS
      intro p lhs s r h
      simp only [ParseBinOpRHS] at h
      split at h
      · cases h; simp
      · split at h
        · exact absurd h (by simp)
        · rename_i s2 heq
          cases h
          have h1 := (ihP _ _ heq).1
          have h2 := length_getNextToken s
          simp only [length_getNextToken] at h1
          (try dsimp only at *); omega
        · rename_i rhs s2 heq
          have hP := (ihP _ _ heq).1
          have hgl := length_getNextToken s
          split at h
          · split at h
            · exact absurd h (by simp)
            · rename_i s3 heq2
              cases h
              have h3 := ihB _ _ _ _ heq2
              simp only [length_getNextToken] at hP
              (try dsimp only at *); omega
            · rename_i rhs2 s3 heq2
              have h3 := ihB _ _ _ _ heq2
              have h4 := ihB _ _ _ _ h
              simp only [length_getNextToken] at hP
              (try dsimp only at *); omega
          · have h4 := ihB _ _ _ _ h
            simp only [length_getNextToken] at hP
            omega
    · -- ParsePrimary
      intro s r h
      simp only [ParsePrimary] at h
      split at h
      · rename_i name heq
        have hne : s.toks ≠ [] := toks_ne_nil_of_curTok heq (by simp)
        have h1 := ihI _ _ _ h
        exact ⟨h1.1, h1.2 hne⟩
      · rename_i v heq
        have hne : s.toks ≠ [] := toks_ne_nil_of_curTok heq (by simp)
        cases h
        have h2 := length_getNextToken s
        have h3 : s.toks.length ≠ 0 := by
          intro h0
          exact hne (List.length_eq_zero.mp h0)
        refine ⟨by simp [ParseNumberExpr]; omega, fun e he => by simp [ParseNumberExpr]; omega⟩
      · rename_i heq
        have hne : s.toks ≠ [] := toks_ne_nil_of_curTok heq (by simp)
        have h1 := ihQ _ _ h
        exact ⟨h1.1, h1.2 hne⟩
      · cases h
        exact ⟨by simp [logError], fun e he => by simp [logError] at he⟩
    · -- ParseParenExpr
      intro s r h
      simp only [ParseParenExpr] at h
      split at h
      · exact absurd h (by simp)
      · rename_i s2 heq
        cases h
        have h1 := (ihE _ _ heq).1
        have h2 := length_getNextToken s
        simp only [length_getNextToken] at h1
        exact ⟨by (try dsimp only at *); omega, fun _ e he => by simp at he⟩
      · rename_i v s2 heq
        have h1 := (ihE _ _ heq).1
        have hgl := length_getNextToken s
        simp only [length_getNextToken] at h1
        split at h
        · cases h
          exact ⟨by simp [logError]; omega, fun _ e he => by simp [logError] at he⟩
        · cases h
          have h2 := length_getNextToken s2
          refine ⟨by (try dsimp only at *); omega, fun hne e he => ?_⟩
          have h3 : s.toks.length ≠ 0 := by
            intro h0
            exact hne (List.length_eq_zero.mp h0)
          (try dsimp only at *); omega
    · -- ParseIdentifierOrCallExpr
      intro nm s r h
      simp only [ParseIdentifierOrCallExpr] at h
      have hg1 := length_getNextToken s
      split at h
      · cases h
        refine ⟨by (try dsimp only at *); omega, fun hne e he => ?_⟩
        have h3 : s.toks.length ≠ 0 := fun h0 => hne (List.length_eq_zero.mp h0)
        (try dsimp only at *); omega
      · split at h
        · cases h
          have hg2 := length_getNextToken (getNextToken s)
          have hg3 := length_getNextToken (getNextToken (getNextToken s))
          refine ⟨by (try dsimp only at *); omega, fun hne e he => ?_⟩
          have h3 : s.toks.length ≠ 0 := fun h0 => hne (List.length_eq_zero.mp h0)
          (try dsimp only at *); omega
        · split at h
          · exact absurd h (by simp)
          · rename_i s3 heq
            cases h
            have h1 := ihA _ _ _ heq
            have hg2 := length_getNextToken (getNextToken s)
            refine ⟨by (try dsimp only at *); omega, fun hne e he => by simp at he⟩
          · rename_i args s3 heq
            have h1 := ihA _ _ _ heq
            have hg2 := length_getNextToken (getNextToken s)
            have hg3 := length_getNextToken s3
            cases h
            refine ⟨by (try dsimp only at *); omega, fun hne e he => ?_⟩
            have h3 : s.toks.length ≠ 0 := fun h0 => hne (List.length_eq_zero.mp h0)
            (try dsimp only at *); omega
    · -- ParseArgs
      intro acc s r h
      simp only [ParseArgs] at h
      split at h
      · exact absurd h (by simp)
      · rename_i s1 heq
        cases h
        exact (ihE _ _ heq).1
      · rename_i arg s1 heq
        have h1 := (ihE _ _ heq).1
        split at h
        · cases h; (try dsimp only at *); omega
        · split at h
          · cases h
            simp only [logError]
            (try dsimp only at *); omega
          · have h2 := ihA _ _ _ h
            have hg := length_getNextToken s1
            (try dsimp only at *); omega



/-- On an exhausted stream, `ParsePrimary` fails with a diagnostic. -/
theorem parsePrimary_nil (f : ℕ) (d : List String) (hf : 1 ≤ f) :
    ParsePrimary f ⟨[], d⟩ =
      some (none, ⟨[], d ++ ["unknown token when expecting an expression"]⟩) := by
  obtain ⟨f1, rfl⟩ : ∃ f1, f = f1 + 1 := ⟨f - 1, by omega⟩
  simp [ParsePrimary, curTok, logError]

/-- On an exhausted stream, `ParseExpression` fails with a diagnostic. -/
theorem parseExpression_nil (f : ℕ) (d : List String) (hf : 2 ≤ f) :
    ParseExpression f ⟨[], d⟩ =
      some (none, ⟨[], d ++ ["unknown token when expecting an expression"]⟩) := by
  obtain ⟨f1, rfl⟩ : ∃ f1, f = f1 + 1 := ⟨f - 1, by omega⟩
  simp only [ParseExpression]
  rw [parsePrimary_nil f1 d (by omega)]

/-- On an exhausted stream, `ParseBinOpRHS` completes (fuel permitting). -/
theorem parseBinOpRHS_nil (f : ℕ) (p : Int) (lhs : ExprAST) (d : List String)
    (hf : 2 ≤ f) : ParseBinOpRHS f p lhs ⟨[], d⟩ ≠ none := by
  obtain ⟨f1, rfl⟩ : ∃ f1, f = f1 + 1 := ⟨f - 1, by omega⟩
  simp only [ParseBinOpRHS]
  split
  · simp
  · have hg : getNextToken ⟨[], d⟩ = (⟨[], d⟩ : PState) := rfl
    rw [hg, parsePrimary_nil f1 d (by omega)]
    simp

/-- On an exhausted stream, `ParseParenExpr` completes. -/
theorem parseParen_nil (f : ℕ) (d : List String) (hf : 3 ≤ f) :
    ParseParenExpr f ⟨[], d⟩ ≠ none := by
  obtain ⟨f1, rfl⟩ : ∃ f1, f = f1 + 1 := ⟨f - 1, by omega⟩
  simp only [ParseParenExpr]
  have hg : getNextToken ⟨[], d⟩ = (⟨[], d⟩ : PState) := rfl
  rw [hg, parseExpression_nil f1 d (by omega)]
  simp

/-- On an exhausted stream, the identifier production yields a bare variable. -/
theorem parseIdent_nil (f : ℕ) (nm : String) (d : List String) (hf : 1 ≤ f) :
    ParseIdentifierOrCallExpr f nm ⟨[], d⟩ =
      some (some (.VariableExpr nm), ⟨[], d⟩) := by
  obtain ⟨f1, rfl⟩ : ∃ f1, f = f1 + 1 := ⟨f - 1, by omega⟩
  simp [ParseIdentifierOrCallExpr, getNextToken, curTok]

/-- On an exhausted stream, the argument-list loop completes. -/
theorem parseArgs_nil (f : ℕ) (acc : List ExprAST) (d : List String) (hf : 3 ≤ f) :
    ParseArgs f acc ⟨[], d⟩ ≠ none := by
  obtain ⟨f1, rfl⟩ : ∃ f1, f = f1 + 1 := ⟨f - 1, by omega⟩
  simp only [ParseArgs]
  rw [parseExpression_nil f1 d (by omega)]
  simp



/-- Fuel sufficiency: on a stream of `n` tokens, fuel `4n + 5` (shifted by
a small constant per production) is enough for every expression-level
production to complete — the fuelled embedding never reaches its
out-of-fuel `none` result.  Proved by strong induction on the stream
length, using `parse_consume` for the strict decrease at each recursive
call. -/
theorem parse_total : ∀ (n : ℕ) (s : PState), s.toks.length = n →
    (∀ f, 4 * n + 5 ≤ f → ParseExpression f s ≠ none) ∧
    (∀ f p lhs, 4 * n + 4 ≤ f → ParseBinOpRHS f p lhs s ≠ none) ∧
    (∀ f, 4 * n + 4 ≤ f → ParsePrimary f s ≠ none) ∧
    (∀ f, 4 * n + 3 ≤ f → ParseParenExpr f s ≠ none) ∧
    (∀ f nm, 4 * n + 3 ≤ f → ParseIdentifierOrCallExpr f nm s ≠ none) ∧
    (∀ f acc, 4 * n + 6 ≤ f → ParseArgs f acc s ≠ none) := by
  intro n
  induction n using Nat.strong_induction_on with
  | _ n ih =>
    intro s hs
    rcases Nat.eq_zero_or_pos n with hn | hn
    · subst hn
      obtain ⟨toks, d⟩ := s
      simp only at hs
      have : toks = [] := List.length_eq_zero.mp hs
      subst this
      refine ⟨?_, ?_, ?_, ?_, ?_, ?_⟩
      · intro f hf; rw [parseExpression_nil f d (by omega)]; simp
      · intro f p lhs hf; exact parseBinOpRHS_nil f p lhs d (by omega)
      · intro f hf; rw [parsePrimary_nil f d (by omega)]; simp
      · intro f hf; exact parseParen_nil f d (by omega)
      · intro f nm hf; rw [parseIdent_nil f nm d (by omega)]; simp
      · intro f acc hf; exact parseArgs_nil f acc d (by omega)
    · obtain ⟨m, rfl⟩ : ∃ m, n = m + 1 := ⟨n - 1, by omega⟩
      have hlen1 : (getNextToken s).toks.length = m := by
        rw [length_getNextToken, hs]
        omega
      have hI : ∀ f nm, 4 * (m + 1) + 3 ≤ f → ParseIdentifierOrCallExpr f nm s ≠ none := by
        intro f nm hf
        obtain ⟨f1, rfl⟩ : ∃ f1, f = f1 + 1 := ⟨f - 1, by omega⟩
        simp only [ParseIdentifierOrCallExpr]
        split
        · simp
        · rename_i hpar
          push_neg at hpar
          split
          · simp
          · have hs1ne : (getNextToken s).toks ≠ [] :=
              toks_ne_nil_of_curTok hpar (by simp)
          
            have hm1 : 1 ≤ m := by
              have := List.length_pos.mpr hs1ne
              omega
            have hlen2 : (getNextToken (getNextToken s)).toks.length = m - 1 := by
              rw [length_getNextToken, hlen1]
            have hAtot := (ih (m - 1) (by omega) (getNextToken (getNextToken s)) hlen2).2.2.2.2.2
            rcases hA2 : ParseArgs f1 [] (getNextToken (getNextToken s)) with _ | r
            · exact absurd hA2 (hAtot f1 [] (by omega))
            · rcases r with ⟨_ | args, s3⟩ <;> simp
      have hQ : ∀ f, 4 * (m + 1) + 3 ≤ f → ParseParenExpr f s ≠ none := by
        intro f hf
        obtain ⟨f1, rfl⟩ : ∃ f1, f = f1 + 1 := ⟨f - 1, by omega⟩
        simp only [ParseParenExpr]
        have hEtot := (ih m (by omega) (getNextToken s) hlen1).1
        rcases hE2 : ParseExpression f1 (getNextToken s) with _ | r
        · exact absurd hE2 (hEtot f1 (by omega))
        · rcases r with ⟨_ | v, s2⟩
          · simp
          · dsimp only
            split <;> simp
      have hP : ∀ f, 4 * (m + 1) + 4 ≤ f → ParsePrimary f s ≠ none := by
        intro f hf
        obtain ⟨f1, rfl⟩ : ∃ f1, f = f1 + 1 := ⟨f - 1, by omega⟩
        simp only [ParsePrimary]
        split
        · rename_i name heq
          exact hI f1 name (by omega)
        · simp [ParseNumberExpr]
        · exact hQ f1 (by omega)
        · simp [logError]
      have hE : ∀ f, 4 * (m + 1) + 5 ≤ f → ParseExpression f s ≠ none := by
        intro f hf
        obtain ⟨f1, rfl⟩ : ∃ f1, f = f1 + 1 := ⟨f - 1, by omega⟩
        simp only [ParseExpression]
        rcases hP2 : ParsePrimary f1 s with _ | r
        · exact absurd hP2 (hP f1 (by omega))
        · rcases r with ⟨_ | lhs, s1⟩
          · simp
          · have hstrict := ((parse_consume f1).2.2.1 s (some lhs, s1) hP2).2 lhs rfl
            dsimp only at hstrict
            have hBtot := (ih s1.toks.length (by omega) s1 rfl).2.1
            dsimp only
            exact hBtot f1 0 lhs (by omega)
      have hA : ∀ f acc, 4 * (m + 1) + 6 ≤ f → ParseArgs f acc s ≠ none := by
        intro f acc hf
        obtain ⟨f1, rfl⟩ : ∃ f1, f = f1 + 1 := ⟨f - 1, by omega⟩
        simp only [ParseArgs]
        rcases hE2 : ParseExpression f1 s with _ | r
        · exact absurd hE2 (hE f1 (by omega))
        · rcases r with ⟨_ | arg, s1⟩
          · simp
          · dsimp only
            split
            · simp
            · split
              · simp
              · have hstrict := ((parse_consume f1).1 s (some arg, s1) hE2).2 arg rfl
                dsimp only at hstrict
                have hlen3 : (getNextToken s1).toks.length = s1.toks.length - 1 :=
                  length_getNextToken s1
                have hAtot := (ih (getNextToken s1).toks.length (by omega) (getNextToken s1) rfl).2.2.2.2.2
                exact hAtot f1 (acc ++ [arg]) (by omega)
      have hB : ∀ f p lhs, 4 * (m + 1) + 4 ≤ f → ParseBinOpRHS f p lhs s ≠ none := by
        intro f p lhs hf
        obtain ⟨f1, rfl⟩ : ∃ f1, f = f1 + 1 := ⟨f - 1, by omega⟩
        simp only [ParseBinOpRHS]
        split
        · simp
        · have hPtot := (ih m (by omega) (getNextToken s) hlen1).2.2.1
          rcases hP2 : ParsePrimary f1 (getNextToken s) with _ | r
          · exact absurd hP2 (hPtot f1 (by omega))
          · rcases r with ⟨_ | rhs, s2⟩
            · simp
            · have hstrict := ((parse_consume f1).2.2.1 (getNextToken s) (some rhs, s2) hP2).2 rhs rfl
              dsimp only at hstrict
              dsimp only
              split
              · have hBtot2 := (ih s2.toks.length (by omega) s2 rfl).2.1
                rcases hB2 : ParseBinOpRHS f1 (GetTokPrecedence (curTok s) + 1) rhs s2 with _ | rb
                · exact absurd hB2 (hBtot2 f1 _ rhs (by omega))
                · rcases rb with ⟨_ | rhs2, s3⟩
                  · simp
                  · have hcons3 := (parse_consume f1).2.1 _ rhs s2 (some rhs2, s3) hB2
                    dsimp only at hcons3
                    have hBtot3 := (ih s3.toks.length (by omega) s3 rfl).2.1
                    exact hBtot3 f1 p _ (by omega)
              · have hBtot2 := (ih s2.toks.length (by omega) s2 rfl).2.1
                exact hBtot2 f1 p _ (by omega)
      exact ⟨hE, hB, hP, hQ, hI, hA⟩



/-- C9: for every finite token stream, `ParseExpression` and
`ParseBinOpRHS` terminate: a successful `ParsePrimary` (one loop
iteration's operand, after the operator token) always consumes at least
one token, and with fuel `4·|toks| + 5` both parsers run to completion —
the fuelled embedding's out-of-fuel result cannot occur, so the parse of
one expression cannot loop forever. -/
theorem C9_expression_parser_terminates (s : PState) :
    (∀ (f : ℕ) (e : ExprAST) (s2 : PState),
      ParsePrimary f s = some (some e, s2) → s2.toks.length < s.toks.length) ∧
    (∀ f, 4 * s.toks.length + 5 ≤ f → ParseExpression f s ≠ none) ∧
    (∀ f p lhs, 4 * s.toks.length + 5 ≤ f → ParseBinOpRHS f p lhs s ≠ none) := by
  refine ⟨?_, ?_, ?_⟩
  · intro f e s2 h
    have := ((parse_consume f).2.2.1 s (some e, s2) h).2 e rfl
    simpa using this
  · exact (parse_total s.toks.length s rfl).1
  · intro f p lhs hf
    exact (parse_total s.toks.length s rfl).2.1 f p lhs (by omega)

/-- C9 witness: concrete termination of `ParseExpression` and
`ParseBinOpRHS` on the stream `1 + 2`, and a concrete one-token
consumption instance for `ParsePrimary`. -/
theorem C9_expression_parser_terminates_witness :
    ParseExpression 21 ⟨[.Number 1, .Symbol '+', .Number 2, .EndOfInput], []⟩ ≠ none ∧
    ParseBinOpRHS 21 0 (.NumberExpr 1) ⟨[.Symbol '+', .Number 2, .EndOfInput], []⟩ ≠ none ∧
    (⟨[Tok.EndOfInput], []⟩ : PState).toks.length <
      (⟨[Tok.Number 7, .EndOfInput], []⟩ : PState).toks.length :=
  ⟨(C9_expression_parser_terminates ⟨[.Number 1, .Symbol '+', .Number 2, .EndOfInput], []⟩).2.1
      21 (by decide),
   (C9_expression_parser_terminates ⟨[.Symbol '+', .Number 2, .EndOfInput], []⟩).2.2
      21 0 (.NumberExpr 1) (by decide),
   (C9_expression_parser_terminates ⟨[.Number 7, .EndOfInput], []⟩).1
      5 (.NumberExpr 7) ⟨[.EndOfInput], []⟩ rfl⟩

end MyLang
